import Mathlib

/-!
Verification development for the ainspector core: the diff range model
(internal/diff/parser.go), the fingerprint engine and marker handling
(cache package), the review memory tracker (cache package), and the
change correlator (extractor package).  Go strings are modelled as
lists of characters; Go errors as Except; machine integers as Int
(line numbers stay far from overflow in every statement below).
-/

namespace AInspector

/-- Go strings are modelled as lists of characters. -/
abbrev Str := List Char

/-- Conversion from a Lean string literal to the model of a Go string. -/
def strOf (s : String) : Str := s.data

/-- Go unicode.IsSpace: the Unicode White_Space property. -/
def goIsSpace (c : Char) : Bool :=
  let n := c.toNat
  (0x09 ≤ n && n ≤ 0x0D) || n == 0x20 || n == 0x85 || n == 0xA0 ||
  n == 0x1680 || (0x2000 ≤ n && n ≤ 0x200A) || n == 0x2028 || n == 0x2029 ||
  n == 0x202F || n == 0x205F || n == 0x3000

/-- Go strings.TrimLeftFunc with unicode.IsSpace. -/
def trimLeft (l : Str) : Str := l.dropWhile goIsSpace

/-- Go strings.TrimRightFunc with unicode.IsSpace. -/
def trimRight (l : Str) : Str := (l.reverse.dropWhile goIsSpace).reverse

/-- Go strings.TrimSpace: both ends trimmed of Unicode white space (the
two single-sided trims commute, so the composition order is immaterial). -/
def trimSpace (l : Str) : Str := trimLeft (trimRight l)

/-- Go strings.Split(s, "\n"). -/
def splitLines (s : Str) : List Str := s.splitOn '\n'

/-- Go strings.Join(ls, "\n"): lines joined by a newline separator
(go-diff stores hunk bodies this way, without a trailing newline). -/
def joinNL : List Str → Str
  | [] => []
  | [l] => l
  | l :: r :: rs => l ++ '\n' :: joinNL (r :: rs)

/-- Go strings.HasPrefix(l, p), i.e. p is an initial segment of l. -/
def isPre (p l : Str) : Bool := p.isPrefixOf l

/-- The result of parsing one file's unified-diff patch
(internal/diff/parser.go, ModifiedLines). -/
structure ModifiedLines where
  Added : List Int
  Deleted : List Int
deriving DecidableEq, Repr

/-- A unified-diff hunk as produced by go-diff's parser: declared old/new
start lines and line counts from the @@ header, and the raw body (the
prefixed lines, joined by newlines). -/
structure Hunk where
  origStartLine : Int
  origLines : Int
  newStartLine : Int
  newLines : Int
  body : Str
deriving DecidableEq, Repr

/-- Decimal digits at the head of a string, and the rest. -/
def takeDigits (l : Str) : Str × Str := (l.takeWhile Char.isDigit, l.dropWhile Char.isDigit)

/-- Value of a decimal digit string. -/
def digitsToNat (l : Str) : Nat := l.foldl (fun a c => a * 10 + (c.toNat - '0'.toNat)) 0

/-- Optional ",count" suffix of a hunk-header coordinate; a missing count
defaults to 1 (unified-diff convention, as implemented by go-diff). -/
def parseOptCount (l : Str) : Int × Str :=
  match l with
  | ',' :: r =>
    let d := (takeDigits r).1
    if d = [] then (1, l) else ((digitsToNat d : Int), (takeDigits r).2)
  | _ => (1, l)

/-- Modelled from the spec: go-diff's hunk-header recognition for lines of
the form "@@ -a[,b] +c[,d] @@ ..." (the library itself is an external
dependency, not part of the repository sources).  Returns
(origStart, origLines, newStart, newLines). -/
def parseHunkHeader (l : Str) : Option (Int × Int × Int × Int) :=
  if isPre (strOf "@@ -") l then
    let r0 := l.drop 4
    let d1 := (takeDigits r0).1
    if d1 = [] then none else
    let os : Int := digitsToNat d1
    let p1 := parseOptCount (takeDigits r0).2
    match p1.2 with
    | ' ' :: '+' :: r2 =>
      let d3 := (takeDigits r2).1
      if d3 = [] then none else
      let ns : Int := digitsToNat d3
      let p2 := parseOptCount (takeDigits r2).2
      if isPre (strOf " @@") p2.2 then some (os, p1.1, ns, p2.1) else none
    | _ => none
  else none

/-- Whether a line opens a hunk. -/
def isHunkStart (l : Str) : Bool := isPre (strOf "@@") l

/-- Modelled from the spec: the hunk-collecting part of go-diff's
ParseMultiFileDiff, processing lines one at a time while carrying the
header and reverse-accumulated body of the currently open hunk.
Consecutive hunks are read in encountered order; a hunk's body extends to
the next hunk header; text that is neither blank nor a hunk header where
one is expected is a parse error (the spec's "malformed patch text that
cannot be parsed into hunks"). -/
def parseHunksAux : List Str → Option ((Int × Int × Int × Int) × List Str) → Except Str (List Hunk)
  | [], none => .ok []
  | [], some (hd, body) => .ok [⟨hd.1, hd.2.1, hd.2.2.1, hd.2.2.2, joinNL body.reverse⟩]
  | l :: rest, cur =>
    if isHunkStart l then
      match parseHunkHeader l with
      | none => .error (strOf "invalid hunk header")
      | some hd =>
        match cur with
        | none => parseHunksAux rest (some (hd, []))
        | some (hd0, body) =>
          match parseHunksAux rest (some (hd, [])) with
          | .error e => .error e
          | .ok hs => .ok (⟨hd0.1, hd0.2.1, hd0.2.2.1, hd0.2.2.2, joinNL body.reverse⟩ :: hs)
    else
      match cur with
      | none => if l = [] then parseHunksAux rest none else .error (strOf "expected hunk header")
      | some (hd, body) => parseHunksAux rest (some (hd, l :: body))

/-- Modelled from the spec: hunk parsing from the first line onward. -/
def parseHunks (ls : List Str) : Except Str (List Hunk) := parseHunksAux ls none

/-- Modelled from the spec: go-diff's ParseMultiFileDiff on the envelope
the repository always hands it (a "---" old-file header line, a "+++"
new-file header line, then hunks).  All hunks are returned in order. -/
def parseMultiFileDiff (patch : Str) : Except Str (List Hunk) :=
  match splitLines patch with
  | l0 :: l1 :: rest =>
    if isPre (strOf "---") l0 && isPre (strOf "+++") l1 then parseHunks rest
    else .error (strOf "expected file header")
  | _ => .error (strOf "expected file header")

/-- ParsePatch / ExtractDiffForRange synthesize placeholder file headers
when the patch does not start with "---" (internal/diff/parser.go). -/
def addHeaders (patch : Str) : Str :=
  if isPre (strOf "---") patch then patch else strOf "--- a/file\n+++ b/file\n" ++ patch

/-- The per-hunk walk of ParsePatch (internal/diff/parser.go lines 37-65):
two independent counters seeded from the hunk's declared starts; '+'
records the new counter, '-' records the old counter, anything else
non-empty advances both. -/
def hunkWalk : List Str → Int → Int → List Int × List Int
  | [], _, _ => ([], [])
  | l :: rest, newLine, oldLine =>
    match l with
    | [] => hunkWalk rest newLine oldLine
    | c :: _ =>
      if c = '+' then
        let p := hunkWalk rest (newLine + 1) oldLine
        (newLine :: p.1, p.2)
      else if c = '-' then
        let p := hunkWalk rest newLine (oldLine + 1)
        (p.1, oldLine :: p.2)
      else hunkWalk rest (newLine + 1) (oldLine + 1)

/-- The hunk loop of ParsePatch: results are appended hunk by hunk. -/
def processHunks (hs : List Hunk) : ModifiedLines :=
  hs.foldl
    (fun acc h =>
      let p := hunkWalk (splitLines h.body) h.newStartLine h.origStartLine
      ⟨acc.Added ++ p.1, acc.Deleted ++ p.2⟩)
    ⟨[], []⟩

/-- ParsePatch (internal/diff/parser.go lines 16-68). -/
def ParsePatch (patch : Str) : Except Str ModifiedLines :=
  if patch = [] then .ok ⟨[], []⟩
  else
    match parseMultiFileDiff (addHeaders patch) with
    | .error e => .error e
    | .ok hs => .ok (processHunks hs)

/-- HasModifiedLineInRange (internal/diff/parser.go lines 71-78). -/
def HasModifiedLineInRange (m : ModifiedLines) (startLine endLine : Int) : Bool :=
  m.Added.any (fun line => decide (startLine ≤ line) && decide (line ≤ endLine))

/-- The per-hunk emitting walk of ExtractDiffForRange
(internal/diff/parser.go lines 106-131): a fresh new-line counter seeded
from the hunk's declared new start; '+' lines are emitted when the counter
is inside the range and advance it, '-' lines are emitted when the counter
is inside the range extended by one and do not advance it, context lines
only advance it. -/
def extractWalk : List Str → Int → Int → Int → List Str
  | [], _, _, _ => []
  | l :: rest, newLine, startLine, endLine =>
    match l with
    | [] => extractWalk rest newLine startLine endLine
    | c :: _ =>
      if c = '+' then
        if startLine ≤ newLine ∧ newLine ≤ endLine then
          l :: extractWalk rest (newLine + 1) startLine endLine
        else extractWalk rest (newLine + 1) startLine endLine
      else if c = '-' then
        if (startLine ≤ newLine ∧ newLine ≤ endLine) ∨
            (startLine ≤ newLine ∧ newLine ≤ endLine + 1) then
          l :: extractWalk rest newLine startLine endLine
        else extractWalk rest newLine startLine endLine
      else extractWalk rest (newLine + 1) startLine endLine

/-- The string builder of ExtractDiffForRange: each emitted line is written
followed by a newline. -/
def buildLines (ls : List Str) : Str := ls.foldl (fun s l => s ++ l ++ [ '\n' ]) []

/-- ExtractDiffForRange (internal/diff/parser.go lines 81-138). -/
def ExtractDiffForRange (patch : Str) (startLine endLine : Int) : Str :=
  if patch = [] then []
  else
    match parseMultiFileDiff (addHeaders patch) with
    | .error _ => []
    | .ok hs =>
      trimSpace (buildLines (hs.foldl
        (fun acc h =>
          if h.newStartLine + h.newLines - 1 ≥ startLine ∧ h.newStartLine ≤ endLine then
            acc ++ extractWalk (splitLines h.body) h.newStartLine startLine endLine
          else acc)
        []))

/-! Declarative characterizations of the two hunk walks, used to state the
claims without merely restating the loops. -/

/-- Whether a raw diff line is an addition ('+' prefixed). -/
def isPlus (l : Str) : Bool :=
  match l with
  | c :: _ => c == '+'
  | [] => false

/-- Whether a raw diff line is a deletion ('-' prefixed). -/
def isMinus (l : Str) : Bool :=
  match l with
  | c :: _ => c == '-'
  | [] => false

/-- Advance of the new-file line counter over one raw body line: empty
lines are skipped, deletions do not advance it, everything else does. -/
def advNew (l : Str) (n : Int) : Int :=
  match l with
  | [] => n
  | c :: _ => if c = '-' then n else n + 1

/-- Advance of the old-file line counter over one raw body line: empty
lines are skipped, additions do not advance it, everything else does. -/
def advOld (l : Str) (n : Int) : Int :=
  match l with
  | [] => n
  | c :: _ => if c = '+' then n else n + 1

/-- Each body line paired with the new-file line counter at that line,
seeded from a hunk's declared new start. -/
def annotateNew : List Str → Int → List (Str × Int)
  | [], _ => []
  | l :: rest, n => (l, n) :: annotateNew rest (advNew l n)

/-- Each body line paired with the old-file line counter at that line,
seeded from a hunk's declared old start. -/
def annotateOld : List Str → Int → List (Str × Int)
  | [], _ => []
  | l :: rest, n => (l, n) :: annotateOld rest (advOld l n)

/-- Declarative Added entries of a hunk body: the computed new-file line
numbers of exactly the '+' lines, in order. -/
def addedSpec (lines : List Str) (n : Int) : List Int :=
  ((annotateNew lines n).filter (fun p => isPlus p.1)).map (fun p => p.2)

/-- Declarative Deleted entries of a hunk body: the computed old-file line
numbers of exactly the '-' lines, in order. -/
def deletedSpec (lines : List Str) (o : Int) : List Int :=
  ((annotateOld lines o).filter (fun p => isMinus p.1)).map (fun p => p.2)

/-- Emission predicate of ExtractDiffForRange: a '+' line is kept iff its
computed new-line number lies in [startLine, endLine]; a '-' line is kept
iff the current new-line position lies in [startLine, endLine + 1] (the
union of [startLine, endLine] and [startLine, endLine + 1]); context and
empty lines are never kept. -/
def keepLine (startLine endLine : Int) (p : Str × Int) : Bool :=
  match p.1 with
  | [] => false
  | c :: _ =>
    if c = '+' then decide (startLine ≤ p.2 ∧ p.2 ≤ endLine)
    else if c = '-' then decide (startLine ≤ p.2 ∧ p.2 ≤ endLine + 1)
    else false

/-- Declarative emitted lines of one hunk body for a range query. -/
def emittedSpec (lines : List Str) (n startLine endLine : Int) : List Str :=
  ((annotateNew lines n).filter (keepLine startLine endLine)).map (fun p => p.1)

/-- Declarative emitted lines of a whole hunk list: hunks whose new-file
span [newStartLine, newStartLine + newLines - 1] does not overlap the
query range contribute nothing. -/
def specEmit (hs : List Hunk) (startLine endLine : Int) : List Str :=
  hs.flatMap (fun h =>
    if h.newStartLine + h.newLines - 1 ≥ startLine ∧ h.newStartLine ≤ endLine then
      emittedSpec (splitLines h.body) h.newStartLine startLine endLine
    else [])

/-! The fingerprint engine (cache package, src/unnamed/part_008). -/

/-- HashPrefix constant: the marker opening delimiter. -/
def markerPre : Str := strOf "<!-- ainspector:fn:"

/-- HashSuffix constant: the marker closing delimiter. -/
def markerSuf : Str := strOf " -->"

/-- HashLength constant: the length of the short hash. -/
def hashLen : Nat := 12

/-- The character class [a-f0-9] of hashRegex. -/
def isLowerHex (c : Char) : Bool :=
  (decide ('a' ≤ c) && decide (c ≤ 'f')) || (decide ('0' ≤ c) && decide (c ≤ '9'))

/-- One attempted match of hashRegex at a fixed position: the literal
opening delimiter, exactly 12 characters of [a-f0-9], then the literal
closing delimiter; on success the captured group is returned. -/
def matchAt (l : Str) : Option Str :=
  if isPre markerPre l then
    if ((l.drop markerPre.length).take hashLen).length = hashLen
        ∧ ((l.drop markerPre.length).take hashLen).all isLowerHex = true
        ∧ isPre markerSuf ((l.drop markerPre.length).drop hashLen) = true
    then some ((l.drop markerPre.length).take hashLen) else none
  else none

/-- Leftmost-match scan of hashRegex (regexp.FindStringSubmatch semantics
for this alternation-free pattern): positions are tried left to right and
the first successful match wins. -/
def scanHash : Str → Option Str
  | [] => none
  | l :: rest =>
    match matchAt (l :: rest) with
    | some c => some c
    | none => scanHash rest

/-- ExtractHash (part_008 lines 39-45): first hashRegex capture in the
comment body, or the empty string when no valid marker is found. -/
def ExtractHash (commentBody : Str) : Str := (scanHash commentBody).getD []

/-- FormatHashMarker (part_008 lines 33-35). -/
def FormatHashMarker (hash : Str) : Str := markerPre ++ hash ++ markerSuf

/-! SHA-256 (Go crypto/sha256, FIPS 180-4), on bytes represented as Nat
with explicit reduction modulo 2^32. -/

/-- Truncation to a 32-bit word. -/
def w32 (n : Nat) : Nat := n % 4294967296

/-- Right rotation of a 32-bit word. -/
def rotr32 (x n : Nat) : Nat := w32 (x / 2 ^ n + x % 2 ^ n * 2 ^ (32 - n))

/-- Logical right shift. -/
def shr32 (x n : Nat) : Nat := x / 2 ^ n

/-- SHA-256 Sigma0. -/
def bigS0 (x : Nat) : Nat := rotr32 x 2 ^^^ rotr32 x 13 ^^^ rotr32 x 22

/-- SHA-256 Sigma1. -/
def bigS1 (x : Nat) : Nat := rotr32 x 6 ^^^ rotr32 x 11 ^^^ rotr32 x 25

/-- SHA-256 sigma0. -/
def smallS0 (x : Nat) : Nat := rotr32 x 7 ^^^ rotr32 x 18 ^^^ shr32 x 3

/-- SHA-256 sigma1. -/
def smallS1 (x : Nat) : Nat := rotr32 x 17 ^^^ rotr32 x 19 ^^^ shr32 x 10

/-- SHA-256 Ch. -/
def chF (x y z : Nat) : Nat := (x &&& y) ^^^ ((x ^^^ 0xffffffff) &&& z)

/-- SHA-256 Maj. -/
def majF (x y z : Nat) : Nat := (x &&& y) ^^^ (x &&& z) ^^^ (y &&& z)

/-- The eight 32-bit working variables of SHA-256. -/
structure Sha256State where
  a : Nat
  b : Nat
  c : Nat
  d : Nat
  e : Nat
  f : Nat
  g : Nat
  h : Nat
deriving DecidableEq, Repr

/-- SHA-256 initial hash value (FIPS 180-4, written in decimal). -/
def sha256Init : Sha256State :=
  ⟨1779033703, 3144134277, 1013904242, 2773480762,
   1359893119, 2600822924, 528734635, 1541459225⟩

/-- SHA-256 round constants (FIPS 180-4, written in decimal). -/
def sha256K : List Nat :=
  [1116352408, 1899447441, 3049323471, 3921009573, 961987163, 1508970993,
   2453635748, 2870763221, 3624381080, 310598401, 607225278, 1426881987,
   1925078388, 2162078206, 2614888103, 3248222580, 3835390401, 4022224774,
   264347078, 604807628, 770255983, 1249150122, 1555081692, 1996064986,
   2554220882, 2821834349, 2952996808, 3210313671, 3336571891, 3584528711,
   113926993, 338241895, 666307205, 773529912, 1294757372, 1396182291,
   1695183700, 1986661051, 2177026350, 2456956037, 2730485921, 2820302411,
   3259730800, 3345764771, 3516065817, 3600352804, 4094571909, 275423344,
   430227734, 506948616, 659060556, 883997877, 958139571, 1322822218,
   1537002063, 1747873779, 1955562222, 2024104815, 2227730452, 2361852424,
   2428436474, 2756734187, 3204031479, 3329325298]

/-- Big-endian 32-bit words from a byte sequence. -/
def bytesToWords : List Nat → List Nat
  | b0 :: b1 :: b2 :: b3 :: rest => (b0 * 16777216 + b1 * 65536 + b2 * 256 + b3) :: bytesToWords rest
  | _ => []

/-- Message-schedule extension: appends the next word k times. -/
def extendW : Nat → List Nat → List Nat
  | 0, ws => ws
  | k + 1, ws =>
    extendW k (ws ++ [w32 (smallS1 (ws.getD (ws.length - 2) 0) + ws.getD (ws.length - 7) 0 +
      smallS0 (ws.getD (ws.length - 15) 0) + ws.getD (ws.length - 16) 0)])

/-- One SHA-256 round with a (constant, schedule word) pair. -/
def sha256Round (st : Sha256State) (kw : Nat × Nat) : Sha256State :=
  let t1 := w32 (st.h + bigS1 st.e + chF st.e st.f st.g + kw.1 + kw.2)
  let t2 := w32 (bigS0 st.a + majF st.a st.b st.c)
  ⟨w32 (t1 + t2), st.a, st.b, st.c, w32 (st.d + t1), st.e, st.f, st.g⟩

/-- Compression of one 64-byte block. -/
def sha256Compress (st : Sha256State) (block : List Nat) : Sha256State :=
  let ws := extendW 48 (bytesToWords block)
  let r := (sha256K.zip ws).foldl sha256Round st
  ⟨w32 (st.a + r.a), w32 (st.b + r.b), w32 (st.c + r.c), w32 (st.d + r.d),
   w32 (st.e + r.e), w32 (st.f + r.f), w32 (st.g + r.g), w32 (st.h + r.h)⟩

/-- Fixed-width big-endian byte expansion of a natural number. -/
def natToBytesBE : Nat → Nat → List Nat
  | 0, _ => []
  | k + 1, n => natToBytesBE k (n / 256) ++ [n % 256]

/-- SHA-256 padding: 0x80, zeros to 56 mod 64, then the 64-bit bit length. -/
def sha256Pad (msg : List Nat) : List Nat :=
  msg ++ 0x80 :: (List.replicate ((64 - (msg.length + 9) % 64) % 64) 0 ++ natToBytesBE 8 (8 * msg.length))

/-- Split a padded message into 64-byte blocks. -/
def chunks64 (l : List Nat) : List (List Nat) :=
  if h : l = [] then [] else l.take 64 :: chunks64 (l.drop 64)
termination_by l.length
decreasing_by
  have : l.length ≠ 0 := fun h0 => h (List.length_eq_zero.mp h0)
  simp only [List.length_drop]
  omega

/-- The 32-byte digest of a final state. -/
def sha256Digest (st : Sha256State) : List Nat :=
  natToBytesBE 4 st.a ++ natToBytesBE 4 st.b ++ natToBytesBE 4 st.c ++ natToBytesBE 4 st.d ++
  natToBytesBE 4 st.e ++ natToBytesBE 4 st.f ++ natToBytesBE 4 st.g ++ natToBytesBE 4 st.h

/-- Go crypto/sha256 Sum256 over a byte sequence. -/
def sha256 (msg : List Nat) : List Nat :=
  sha256Digest ((chunks64 (sha256Pad msg)).foldl sha256Compress sha256Init)

/-- UTF-8 encoding of one character (Go strings are UTF-8 byte sequences). -/
def utf8Bytes (c : Char) : List Nat :=
  let n := c.toNat
  if n < 0x80 then [n]
  else if n < 0x800 then [0xc0 + n / 64, 0x80 + n % 64]
  else if n < 0x10000 then [0xe0 + n / 4096, 0x80 + n / 64 % 64, 0x80 + n % 64]
  else [0xf0 + n / 262144, 0x80 + n / 4096 % 64, 0x80 + n / 64 % 64, 0x80 + n % 64]

/-- The UTF-8 bytes of a Go string. -/
def strBytes (s : Str) : List Nat := s.flatMap utf8Bytes

/-- Lowercase hexadecimal digit (encoding/hex alphabet). -/
def hexDigitChar (n : Nat) : Char := if n < 10 then Char.ofNat (48 + n) else Char.ofNat (87 + n)

/-- Go hex.EncodeToString: two lowercase hex digits per byte. -/
def hexOfBytes (bs : List Nat) : Str :=
  bs.flatMap (fun b => [hexDigitChar (b / 16), hexDigitChar (b % 16)])

/-! The extractor data model (src/unnamed/part_002) and the review memory
tracker (src/unnamed/part_006). -/

/-- ExtractedFunction (part_002 lines 14-23). -/
structure ExtractedFunction where
  Name : Str
  StartLine : Int
  EndLine : Int
  Content : Str
  Diff : Str
  FilePath : Str
  Language : Str
  ChangeType : Str
deriving DecidableEq, Repr

/-- The concatenated hash input of FunctionHash (part_008 line 26):
the four fields joined with the literal separator ":". -/
def hashData (fn : ExtractedFunction) : Str :=
  fn.FilePath ++ [':'] ++ fn.Name ++ [':'] ++ fn.Content ++ [':'] ++ fn.Diff

/-- SHA-256 of the UTF-8 bytes, hex-encoded, truncated to HashLength. -/
def fingerprintOf (data : Str) : Str := (hexOfBytes (sha256 (strBytes data))).take hashLen

/-- FunctionHash (part_008 lines 25-29). -/
def FunctionHash (fn : ExtractedFunction) : Str := fingerprintOf (hashData fn)

/-- ReviewedComment (part_006 lines 8-13). -/
structure ReviewedComment where
  Path : Str
  Line : Int
  Hash : Str
  Body : Str
deriving DecidableEq, Repr

/-- Tracker (part_006): the key set of the Go map[string]bool of reviewed
hashes; only membership and size are ever consulted, never order. -/
structure Tracker where
  reviewed : List Str
deriving DecidableEq, Repr

/-- NewTracker (part_006). -/
def NewTracker : Tracker := ⟨[]⟩

/-- Go map assignment m[k] = true on the key-set model: inserting an
already present key is a no-op on the key set. -/
def mapSet (m : List Str) (k : Str) : List Str := if m.contains k then m else k :: m

/-- LoadFromComments (part_006 lines 29-35): every non-empty Hash field is
added to the reviewed set, with no further validation. -/
def LoadFromComments (t : Tracker) (comments : List ReviewedComment) : Tracker :=
  comments.foldl (fun t c => if c.Hash ≠ [] then ⟨mapSet t.reviewed c.Hash⟩ else t) t

/-- IsReviewed (part_006 lines 38-41). -/
def IsReviewed (t : Tracker) (fn : ExtractedFunction) : Bool :=
  t.reviewed.contains (FunctionHash fn)

/-- FilterUnreviewed (part_006 lines 44-52). -/
def FilterUnreviewed (t : Tracker) : List ExtractedFunction → List ExtractedFunction
  | [] => []
  | fn :: rest => if IsReviewed t fn then FilterUnreviewed t rest else fn :: FilterUnreviewed t rest

/-- ReviewedCount (part_006 lines 55-57): the size of the Go map, i.e. the
number of distinct stored hashes. -/
def ReviewedCount (t : Tracker) : Nat := t.reviewed.length

/-- ModifiedFile (internal/provider/github.go lines 160-166), the fields
the extractor consults. -/
structure ModifiedFile where
  Path : Str
  Status : Str
  Patch : Str
deriving DecidableEq, Repr

/-- A function boundary as returned by the external multi-language parser
(internal/parser, an external collaborator per the spec). -/
structure FnBoundary where
  Name : Str
  StartLine : Int
  EndLine : Int
  Content : Str
deriving DecidableEq, Repr

/-- The extractor's external collaborators (provider content fetch,
syntactic parser, config ignore patterns, language support check),
passed explicitly; per-file failures are values of Except. -/
structure ExtractorEnv where
  getFileContent : Str → Except Str Str
  parseFile : Str → Str → Except Str (List FnBoundary × Str)
  shouldIgnore : Str → Bool
  isSupported : Str → Bool

/-- extractFromFile (part_002 lines 83-126): fetch content, parse the
patch, parse the file, keep the boundaries with a modified line in range,
attaching the scoped diff and the change type. -/
def extractFromFile (env : ExtractorEnv) (file : ModifiedFile) : Except Str (List ExtractedFunction) :=
  match env.getFileContent file.Path with
  | .error e => .error e
  | .ok content =>
    match ParsePatch file.Patch with
    | .error e => .error e
    | .ok modifiedLines =>
      match env.parseFile file.Path content with
      | .error e => .error e
      | .ok fl =>
        .ok (fl.1.filterMap (fun fn =>
          if HasModifiedLineInRange modifiedLines fn.StartLine fn.EndLine then
            some ⟨fn.Name, fn.StartLine, fn.EndLine, fn.Content,
                  ExtractDiffForRange file.Patch fn.StartLine fn.EndLine,
                  file.Path, fl.2,
                  if file.Status = strOf "added" then strOf "added" else strOf "modified"⟩
          else none))

/-- The per-file body of the ExtractModifiedFunctions loop (part_002 lines
49-80): deleted, ignored and unsupported files are skipped, and a failing
extraction is logged and skipped. -/
def fileFunctions (env : ExtractorEnv) (file : ModifiedFile) : List ExtractedFunction :=
  if file.Status = strOf "deleted" then []
  else if env.shouldIgnore file.Path then []
  else if !env.isSupported file.Path then []
  else
    match extractFromFile env file with
    | .error _ => []
    | .ok fns => fns

/-- ExtractModifiedFunctions (part_002 lines 49-80). -/
def ExtractModifiedFunctions (env : ExtractorEnv) (files : List ModifiedFile) : List ExtractedFunction :=
  files.flatMap (fileFunctions env)

/-- A hosting-service review comment as consumed by runReview
(src/cmd/root.go): only Path, Line and Body are read. -/
structure PRComment where
  Path : Str
  Line : Int
  Body : Str
deriving DecidableEq, Repr

/-- The comment conversion loop of runReview (src/cmd/root.go lines
133-141): the Hash field is filled by ExtractHash on the comment body. -/
def buildReviewedComments (comments : List PRComment) : List ReviewedComment :=
  comments.map (fun c => ⟨c.Path, c.Line, ExtractHash c.Body, c.Body⟩)

/-! Concrete inputs used in the spec's scenarios and in witnesses. -/

/-- Scenario A patch text. -/
def scenarioA : Str := strOf "@@ -1,3 +1,5 @@\n line1\n+added1\n+added2\n line2\n line3"

/-- The hunks of scenario A. -/
def scenarioAHunks : List Hunk := [⟨1, 3, 1, 5, strOf " line1\n+added1\n+added2\n line2\n line3"⟩]

/-- Scenario B patch text. -/
def scenarioB : Str := strOf "@@ -1,4 +1,4 @@\n line1\n-old_line\n+new_line\n line3\n line4"

/-- The hunks of scenario B. -/
def scenarioBHunks : List Hunk := [⟨1, 4, 1, 4, strOf " line1\n-old_line\n+new_line\n line3\n line4"⟩]

/-- A function record whose FilePath contains the separator character. -/
def fnColl1 : ExtractedFunction :=
  ⟨strOf "c", 1, 2, strOf "x", strOf "y", strOf "a:b", strOf "go", strOf "modified"⟩

/-- A distinct function record with the same concatenated hash input. -/
def fnColl2 : ExtractedFunction :=
  ⟨strOf "b:c", 1, 2, strOf "x", strOf "y", strOf "a", strOf "go", strOf "modified"⟩

/-- A concrete extractor environment: content fetch and boundary parsing
always succeed with one three-line function, nothing ignored, everything
supported. -/
def envW : ExtractorEnv :=
  ⟨fun _ => .ok (strOf "func f()"),
   fun _ _ => .ok ([⟨strOf "f", 1, 3, strOf "func f()"⟩], strOf "go"),
   fun _ => false,
   fun _ => true⟩

/-- A newly added file whose patch is scenario A. -/
def fileW : ModifiedFile := ⟨strOf "a.go", strOf "added", scenarioA⟩

/-- The function record the extractor emits for fileW under envW. -/
def fnW : ExtractedFunction :=
  ⟨strOf "f", 1, 3, strOf "func f()", strOf "+added1\n+added2", strOf "a.go", strOf "go",
   strOf "added"⟩

theorem hunkWalk_eq (lines : List Str) : ∀ n o : Int,
    hunkWalk lines n o = (addedSpec lines n, deletedSpec lines o) := by
  induction lines with
  | nil => intro n o; rfl
  | cons l rest ih =>
    intro n o
    cases l with
    | nil =>
      simp [hunkWalk, addedSpec, deletedSpec, annotateNew, annotateOld, advNew, advOld,
        isPlus, isMinus, ih n o]
    | cons c cs =>
      by_cases h1 : c = '+'
      · subst h1
        simp [hunkWalk, addedSpec, deletedSpec, annotateNew, annotateOld, advNew, advOld,
          isPlus, isMinus, ih]
      · by_cases h2 : c = '-'
        · subst h2
          simp [hunkWalk, addedSpec, deletedSpec, annotateNew, annotateOld, advNew, advOld,
            isPlus, isMinus, ih]
        · simp [hunkWalk, addedSpec, deletedSpec, annotateNew, annotateOld, advNew, advOld,
            isPlus, isMinus, h1, h2, ih]

theorem extractWalk_eq (lines : List Str) : ∀ n startLine endLine : Int,
    extractWalk lines n startLine endLine = emittedSpec lines n startLine endLine := by
  induction lines with
  | nil => intro n s e; rfl
  | cons l rest ih =>
    intro n s e
    cases l with
    | nil =>
      simp [extractWalk, emittedSpec, annotateNew, advNew, keepLine, ih n s e]
    | cons c cs =>
      by_cases h1 : c = '+'
      · subst h1
        by_cases hr : s ≤ n ∧ n ≤ e
        · simp [extractWalk, emittedSpec, annotateNew, advNew, keepLine, hr, ih]
        · simp [extractWalk, emittedSpec, annotateNew, advNew, keepLine, hr, ih]
      · by_cases h2 : c = '-'
        · subst h2
          by_cases hr : s ≤ n ∧ n ≤ e + 1
          · have hcond : (s ≤ n ∧ n ≤ e) ∨ (s ≤ n ∧ n ≤ e + 1) := Or.inr hr
            simp [extractWalk, emittedSpec, annotateNew, advNew, keepLine, hcond, hr, ih, h1]
          · have hcond : ¬ ((s ≤ n ∧ n ≤ e) ∨ (s ≤ n ∧ n ≤ e + 1)) := by
              intro hor
              rcases hor with h | h
              · exact hr ⟨h.1, by omega⟩
              · exact hr h
            simp [extractWalk, emittedSpec, annotateNew, advNew, keepLine, hcond, hr, ih, h1]
            omega
        · simp [extractWalk, emittedSpec, annotateNew, advNew, keepLine, h1, h2, ih]

theorem foldl_ml (f g : Hunk → List Int) (hs : List Hunk) : ∀ a d : List Int,
    hs.foldl (fun acc h => ModifiedLines.mk (acc.Added ++ f h) (acc.Deleted ++ g h)) ⟨a, d⟩
    = ⟨a ++ hs.flatMap f, d ++ hs.flatMap g⟩ := by
  induction hs with
  | nil => intro a d; simp
  | cons h t ih =>
    intro a d
    simp only [List.foldl_cons, List.flatMap_cons, ih]
    simp [List.append_assoc]

/-- The per-hunk walk loop of ParsePatch computes exactly the declarative
Added / Deleted sequences, concatenated hunk by hunk. -/
theorem processHunks_eq (hs : List Hunk) :
    processHunks hs
    = ⟨hs.flatMap (fun h => addedSpec (splitLines h.body) h.newStartLine),
       hs.flatMap (fun h => deletedSpec (splitLines h.body) h.origStartLine)⟩ := by
  unfold processHunks
  simp only [hunkWalk_eq]
  simpa using foldl_ml _ _ hs [] []

theorem buildLines_foldl (ls : List Str) : ∀ s : Str,
    ls.foldl (fun s l => s ++ l ++ [ '\n' ]) s = s ++ ls.flatMap (fun l => l ++ [ '\n' ]) := by
  induction ls with
  | nil => intro s; simp
  | cons l t ih =>
    intro s
    rw [List.foldl_cons, ih]
    simp [List.append_assoc]

theorem foldl_append_flatMap (E : Hunk → List Str) (hs : List Hunk) : ∀ acc : List Str,
    hs.foldl (fun acc h => acc ++ E h) acc = acc ++ hs.flatMap E := by
  induction hs with
  | nil => intro acc; simp
  | cons h t ih =>
    intro acc
    simp only [List.foldl_cons, List.flatMap_cons, ih]
    simp [List.append_assoc]

theorem extract_foldl (startLine endLine : Int) (hs : List Hunk) : ∀ acc : List Str,
    hs.foldl
      (fun acc h =>
        if h.newStartLine + h.newLines - 1 ≥ startLine ∧ h.newStartLine ≤ endLine then
          acc ++ extractWalk (splitLines h.body) h.newStartLine startLine endLine
        else acc)
      acc
    = acc ++ specEmit hs startLine endLine := by
  intro acc
  have hstep : ∀ (a : List Str) (h : Hunk),
      (if h.newStartLine + h.newLines - 1 ≥ startLine ∧ h.newStartLine ≤ endLine then
        a ++ extractWalk (splitLines h.body) h.newStartLine startLine endLine
      else a)
      = a ++ (if h.newStartLine + h.newLines - 1 ≥ startLine ∧ h.newStartLine ≤ endLine then
          emittedSpec (splitLines h.body) h.newStartLine startLine endLine
        else []) := by
    intro a h
    by_cases hc : h.newStartLine + h.newLines - 1 ≥ startLine ∧ h.newStartLine ≤ endLine
    · simp [hc, extractWalk_eq]
    · simp [hc]
  simp only [hstep]
  exact foldl_append_flatMap _ hs acc

theorem buildLines_flatMap (ls : List Str) : buildLines ls = ls.flatMap (fun l => l ++ [ '\n' ]) := by
  simpa [buildLines] using buildLines_foldl ls []

theorem trimRight_snoc_nl (s : Str) : trimRight (s ++ [ '\n' ]) = trimRight s := by
  unfold trimRight
  rw [List.reverse_append]
  simp [List.dropWhile_cons, show goIsSpace '\n' = true from rfl]

theorem trimSpace_snoc_nl (s : Str) : trimSpace (s ++ [ '\n' ]) = trimSpace s := by
  unfold trimSpace
  rw [trimRight_snoc_nl]

theorem flatMapNL_eq (ls : List Str) (h : ls ≠ []) :
    ls.flatMap (fun l => l ++ [ '\n' ]) = joinNL ls ++ [ '\n' ] := by
  induction ls with
  | nil => cases h rfl
  | cons l t ih =>
    cases t with
    | nil => simp [joinNL]
    | cons r rs =>
      rw [List.flatMap_cons, ih (by simp)]
      simp [joinNL, List.append_assoc]

theorem trim_buildLines (ls : List Str) : trimSpace (buildLines ls) = trimSpace (joinNL ls) := by
  cases ls with
  | nil => rfl
  | cons l t =>
    rw [buildLines_flatMap, flatMapNL_eq _ (by simp), trimSpace_snoc_nl]

theorem addedSpec_length (lines : List Str) : ∀ n : Int,
    (addedSpec lines n).length = lines.countP isPlus := by
  induction lines with
  | nil => intro n; rfl
  | cons l rest ih =>
    intro n
    simp only [addedSpec, annotateNew] at ih ⊢
    rw [List.filter_cons]
    by_cases hl : isPlus l = true
    · simp [hl, List.countP_cons, ih]
    · simp [hl, List.countP_cons, ih]

theorem deletedSpec_length (lines : List Str) : ∀ n : Int,
    (deletedSpec lines n).length = lines.countP isMinus := by
  induction lines with
  | nil => intro n; rfl
  | cons l rest ih =>
    intro n
    simp only [deletedSpec, annotateOld] at ih ⊢
    rw [List.filter_cons]
    by_cases hl : isMinus l = true
    · simp [hl, List.countP_cons, ih]
    · simp [hl, List.countP_cons, ih]

/-- Claim C1: for every patch parseable into hunks and every inclusive
range, ExtractDiffForRange skips hunks whose new-file span
[newStartLine, newStartLine + newLines - 1] does not overlap the range;
within a kept hunk, walking the body with a new-line counter seeded from
the declared new start, a '+' line is emitted iff its computed new-line
number lies in [startLine, endLine], a '-' line iff the current new-line
position lies in [startLine, endLine] or [startLine, endLine + 1] (the
keepLine predicate), and context lines never; the result is the emitted
lines joined by newline, trimmed of leading/trailing white space.  In
particular scenario B with range (2, 2) yields "-old_line\n+new_line". -/
theorem extractDiffForRange_spec (patch : Str) (hunks : List Hunk) (s e : Int)
    (hp : parseMultiFileDiff (addHeaders patch) = .ok hunks) :
    ExtractDiffForRange patch s e = trimSpace (joinNL (specEmit hunks s e))
    ∧ ExtractDiffForRange scenarioB 2 2 = strOf "-old_line\n+new_line" := by
  refine ⟨?_, by rfl⟩
  by_cases hne : patch = []
  · subst hne
    rw [show parseMultiFileDiff (addHeaders ([] : Str)) = Except.ok ([] : List Hunk) from rfl] at hp
    cases hp
    rfl
  · unfold ExtractDiffForRange
    rw [if_neg hne, hp]
    show trimSpace (buildLines _) = _
    rw [extract_foldl, List.nil_append, trim_buildLines]

theorem extractDiffForRange_spec_witness :
    ExtractDiffForRange scenarioB 2 2 = strOf "-old_line\n+new_line" :=
  (extractDiffForRange_spec scenarioB scenarioBHunks 2 2 (by rfl)).2

/-- Claim C3: for every patch parseable into hunks, ParsePatch walks the
hunks in order with two independent counters seeded from the declared
starts, recording the new counter for each '+' body line and the old
counter for each '-' body line, context lines advancing both unrecorded,
so Added and Deleted are the declarative per-hunk sequences and their
lengths match the naive count of '+' (resp. '-') body lines.  In
particular scenario A yields Added = [2, 3], Deleted = []. -/
theorem parsePatch_spec (patch : Str) (hunks : List Hunk)
    (hp : parseMultiFileDiff (addHeaders patch) = .ok hunks) :
    ParsePatch patch
      = .ok ⟨hunks.flatMap (fun h => addedSpec (splitLines h.body) h.newStartLine),
             hunks.flatMap (fun h => deletedSpec (splitLines h.body) h.origStartLine)⟩
    ∧ (hunks.flatMap (fun h => addedSpec (splitLines h.body) h.newStartLine)).length
        = (hunks.map (fun h => (splitLines h.body).countP isPlus)).sum
    ∧ (hunks.flatMap (fun h => deletedSpec (splitLines h.body) h.origStartLine)).length
        = (hunks.map (fun h => (splitLines h.body).countP isMinus)).sum
    ∧ ParsePatch scenarioA = .ok ⟨[2, 3], []⟩ := by
  refine ⟨?_, ?_, ?_, by rfl⟩
  · by_cases hne : patch = []
    · subst hne
      rw [show parseMultiFileDiff (addHeaders ([] : Str)) = Except.ok ([] : List Hunk) from rfl] at hp
      cases hp
      rfl
    · unfold ParsePatch
      rw [if_neg hne, hp]
      show Except.ok (processHunks hunks) = _
      rw [processHunks_eq]
  · rw [List.length_flatMap]
    refine congrArg List.sum (List.map_congr_left fun h _ => ?_)
    simp only [Function.comp_apply, addedSpec_length]
  · rw [List.length_flatMap]
    refine congrArg List.sum (List.map_congr_left fun h _ => ?_)
    simp only [Function.comp_apply, deletedSpec_length]

theorem parsePatch_spec_witness :
    ParsePatch scenarioA = .ok ⟨[2, 3], []⟩ :=
  (parsePatch_spec scenarioA scenarioAHunks (by rfl)).2.2.2

/-- Claim C4: HasModifiedLineInRange is true iff some Added entry lies in
the inclusive range [startLine, endLine], and Deleted entries alone never
make it true. -/
theorem hasModifiedLineInRange_spec (m : ModifiedLines) (s e : Int) :
    (HasModifiedLineInRange m s e = true ↔ ∃ l ∈ m.Added, s ≤ l ∧ l ≤ e)
    ∧ ∀ d : List Int, HasModifiedLineInRange ⟨[], d⟩ s e = false := by
  constructor
  · simp [HasModifiedLineInRange, List.any_eq_true]
  · intro d; rfl

theorem hasModifiedLineInRange_spec_witness :
    HasModifiedLineInRange ⟨[5], []⟩ 5 5 = true
    ∧ HasModifiedLineInRange ⟨[], [4]⟩ 1 10 = false :=
  ⟨(hasModifiedLineInRange_spec ⟨[5], []⟩ 5 5).1.mpr ⟨5, by simp, by omega, by omega⟩,
   (hasModifiedLineInRange_spec ⟨[], [4]⟩ 1 10).2 [4]⟩

/-- Claim C9: the empty patch is a non-error input with empty results, and
a patch whose text cannot be parsed into hunks makes ParsePatch return a
reported error and ExtractDiffForRange return the empty string (both total
functions, so neither can crash). -/
theorem parsePatch_error_spec :
    ParsePatch [] = .ok ⟨[], []⟩
    ∧ (∀ s e : Int, ExtractDiffForRange [] s e = [])
    ∧ ∀ patch msg, parseMultiFileDiff (addHeaders patch) = .error msg →
        ParsePatch patch = .error msg ∧ ∀ s e : Int, ExtractDiffForRange patch s e = [] := by
  refine ⟨rfl, fun s e => rfl, ?_⟩
  intro patch msg hp
  have hne : patch ≠ [] := by
    intro h
    subst h
    rw [show parseMultiFileDiff (addHeaders ([] : Str)) = Except.ok ([] : List Hunk) from rfl] at hp
    cases hp
  constructor
  · unfold ParsePatch
    rw [if_neg hne, hp]
  · intro s e
    unfold ExtractDiffForRange
    rw [if_neg hne, hp]

theorem parsePatch_error_spec_witness :
    ParsePatch (strOf "garbage") = .error (strOf "expected hunk header")
    ∧ ExtractDiffForRange (strOf "garbage") 1 10 = [] := by
  have h := parsePatch_error_spec.2.2 (strOf "garbage") (strOf "expected hunk header") (by rfl)
  exact ⟨h.1, h.2 1 10⟩

theorem contains_iff (l : List Str) (a : Str) : l.contains a = true ↔ a ∈ l := by
  simp [List.contains, List.elem_iff]

theorem isPre_append_self (p x : Str) : isPre p (p ++ x) = true := by
  unfold isPre
  induction p with
  | nil => simp [List.isPrefixOf]
  | cons c cs ih => simp [List.isPrefixOf, ih]

theorem scanHash_head (l c : Str) (hm : matchAt l = some c) : scanHash l = some c := by
  cases l with
  | nil =>
    rw [show matchAt [] = none from rfl] at hm
    cases hm
  | cons a t => simp [scanHash, hm]

theorem matchAt_marker (h : Str) (hlen : h.length = 12) (hhex : h.all isLowerHex = true) :
    matchAt (markerPre ++ (h ++ markerSuf)) = some h := by
  have h12 : hashLen = h.length := by simp [hashLen, hlen]
  have hdrop : (markerPre ++ (h ++ markerSuf)).drop markerPre.length = h ++ markerSuf :=
    List.drop_left _ _
  have htake : (h ++ markerSuf).take hashLen = h := by
    rw [h12]
    exact List.take_left h markerSuf
  have hdrop2 : (h ++ markerSuf).drop hashLen = markerSuf := by
    rw [h12]
    exact List.drop_left h markerSuf
  have hsuf : isPre markerSuf markerSuf = true := by
    have := isPre_append_self markerSuf []
    rwa [List.append_nil] at this
  unfold matchAt
  rw [if_pos (isPre_append_self markerPre (h ++ markerSuf)), hdrop, htake, hdrop2]
  rw [if_pos ⟨h12.symm, hhex, hsuf⟩]

theorem matchAt_some_props (l c : Str) (hm : matchAt l = some c) :
    c.length = 12 ∧ c.all isLowerHex = true := by
  unfold matchAt at hm
  split at hm
  · split at hm
    next hcond =>
      cases hm
      exact ⟨hcond.1, hcond.2.1⟩
    next => cases hm
  · cases hm

theorem scanHash_first (l : Str) :
    scanHash l = none
    ∨ ∃ i c, scanHash l = some c ∧ matchAt (l.drop i) = some c
        ∧ ∀ j, j < i → matchAt (l.drop j) = none := by
  induction l with
  | nil => exact Or.inl rfl
  | cons a t ih =>
    cases hm : matchAt (a :: t) with
    | some c =>
      refine Or.inr ⟨0, c, ?_, by simpa using hm, ?_⟩
      · simp [scanHash, hm]
      · intro j hj
        omega
    | none =>
      rcases ih with h | ⟨i, c, hsc, hmi, hlt⟩
      · left
        simp [scanHash, hm, h]
      · right
        refine ⟨i + 1, c, ?_, ?_, ?_⟩
        · simp [scanHash, hm, hsc]
        · simpa [List.drop_succ_cons] using hmi
        · intro j hj
          cases j with
          | zero => simpa using hm
          | succ k =>
            rw [List.drop_succ_cons]
            exact hlt k (by omega)

/-- Claim C6: wrapping any 12-character lowercase-hex fingerprint in the
marker envelope and scanning the result recovers exactly that fingerprint
(round-trip law for FormatHashMarker and ExtractHash). -/
theorem marker_roundtrip (h : Str) (hlen : h.length = 12) (hhex : h.all isLowerHex = true) :
    ExtractHash (FormatHashMarker h) = h := by
  have hassoc : FormatHashMarker h = markerPre ++ (h ++ markerSuf) := by
    simp [FormatHashMarker, List.append_assoc]
  rw [hassoc]
  unfold ExtractHash
  rw [scanHash_head _ _ (matchAt_marker h hlen hhex)]
  rfl

theorem marker_roundtrip_witness :
    ExtractHash (FormatHashMarker (strOf "abc123abc123")) = strOf "abc123abc123" :=
  marker_roundtrip (strOf "abc123abc123") (by rfl) (by rfl)

/-- Claim C7: ExtractHash is total (never raises); on any text it either
returns the empty result, or it returns the capture of the leftmost
marker match, which is always 12 lowercase-hex characters; markers with
fewer than 12 hex characters or a different prefix do not match. -/
theorem extractHash_safety :
    (∀ text : Str, ExtractHash text = []
      ∨ ∃ i, matchAt (text.drop i) = some (ExtractHash text)
          ∧ (∀ j, j < i → matchAt (text.drop j) = none)
          ∧ (ExtractHash text).length = 12 ∧ (ExtractHash text).all isLowerHex = true)
    ∧ ExtractHash (strOf "<!-- ainspector:fn:abc -->") = []
    ∧ ExtractHash (strOf "<!-- wrong:fn:abcdefabcdef -->") = [] := by
  refine ⟨?_, by rfl, by rfl⟩
  intro text
  rcases scanHash_first text with h | ⟨i, c, hsc, hmi, hlt⟩
  · left
    simp [ExtractHash, h]
  · right
    have he : ExtractHash text = c := by simp [ExtractHash, hsc]
    rw [he]
    obtain ⟨hl, hx⟩ := matchAt_some_props _ _ hmi
    exact ⟨i, hmi, hlt, hl, hx⟩

theorem extractHash_safety_witness :
    ExtractHash (strOf "xx<!-- ainspector:fn:0123456789ab -->yy") = []
    ∨ ∃ i, matchAt ((strOf "xx<!-- ainspector:fn:0123456789ab -->yy").drop i)
          = some (ExtractHash (strOf "xx<!-- ainspector:fn:0123456789ab -->yy"))
        ∧ (∀ j, j < i →
            matchAt ((strOf "xx<!-- ainspector:fn:0123456789ab -->yy").drop j) = none)
        ∧ (ExtractHash (strOf "xx<!-- ainspector:fn:0123456789ab -->yy")).length = 12
        ∧ (ExtractHash (strOf "xx<!-- ainspector:fn:0123456789ab -->yy")).all isLowerHex = true :=
  extractHash_safety.1 (strOf "xx<!-- ainspector:fn:0123456789ab -->yy")

theorem natToBytesBE_length (k : Nat) : ∀ n, (natToBytesBE k n).length = k := by
  induction k with
  | zero => intro n; rfl
  | succ k ih => intro n; simp [natToBytesBE, ih]

theorem sha256Digest_length (st : Sha256State) : (sha256Digest st).length = 32 := by
  simp [sha256Digest, natToBytesBE_length]

theorem sha256_length (msg : List Nat) : (sha256 msg).length = 32 :=
  sha256Digest_length _

theorem hexOfBytes_length (bs : List Nat) : (hexOfBytes bs).length = 2 * bs.length := by
  induction bs with
  | nil => rfl
  | cons b t ih =>
    simp only [hexOfBytes] at ih ⊢
    rw [List.flatMap_cons]
    simp [ih]
    omega

theorem fingerprint_length (d : Str) : (fingerprintOf d).length = 12 := by
  simp [fingerprintOf, List.length_take, hexOfBytes_length, sha256_length, hashLen]

/-- Claim C2 (amended): FunctionHash joins FilePath, Name, Content and
Diff with the literal separator ':' (which may itself occur inside the
fields), hashes the UTF-8 bytes with SHA-256 and truncates the hex
encoding to its first 12 characters; it is a pure function of the joined
data, and changing exactly one of the four fields while the other three
stay fixed always changes the joined hash input. -/
theorem functionHash_spec :
    (∀ fn : ExtractedFunction, (FunctionHash fn).length = 12)
    ∧ (∀ fn fn' : ExtractedFunction, hashData fn = hashData fn' → FunctionHash fn = FunctionHash fn')
    ∧ (∀ fn fn' : ExtractedFunction, fn.Name = fn'.Name → fn.Content = fn'.Content →
        fn.Diff = fn'.Diff → fn.FilePath ≠ fn'.FilePath → hashData fn ≠ hashData fn')
    ∧ (∀ fn fn' : ExtractedFunction, fn.FilePath = fn'.FilePath → fn.Content = fn'.Content →
        fn.Diff = fn'.Diff → fn.Name ≠ fn'.Name → hashData fn ≠ hashData fn')
    ∧ (∀ fn fn' : ExtractedFunction, fn.FilePath = fn'.FilePath → fn.Name = fn'.Name →
        fn.Diff = fn'.Diff → fn.Content ≠ fn'.Content → hashData fn ≠ hashData fn')
    ∧ (∀ fn fn' : ExtractedFunction, fn.FilePath = fn'.FilePath → fn.Name = fn'.Name →
        fn.Content = fn'.Content → fn.Diff ≠ fn'.Diff → hashData fn ≠ hashData fn') := by
  refine ⟨fun fn => fingerprint_length _, fun fn fn' h => congrArg fingerprintOf h, ?_, ?_, ?_, ?_⟩
  · intro fn fn' hN hC hD hFP heq
    apply hFP
    unfold hashData at heq
    rw [hN, hC, hD] at heq
    have h1 := List.append_cancel_right heq
    have h2 := List.append_cancel_right h1
    have h3 := List.append_cancel_right h2
    have h4 := List.append_cancel_right h3
    have h5 := List.append_cancel_right h4
    exact List.append_cancel_right h5
  · intro fn fn' hFP hC hD hN heq
    apply hN
    unfold hashData at heq
    rw [hFP, hC, hD] at heq
    have h1 := List.append_cancel_right heq
    have h2 := List.append_cancel_right h1
    have h3 := List.append_cancel_right h2
    have h4 := List.append_cancel_right h3
    exact List.append_cancel_left h4
  · intro fn fn' hFP hN hD hC heq
    apply hC
    unfold hashData at heq
    rw [hFP, hN, hD] at heq
    have h1 := List.append_cancel_right heq
    have h2 := List.append_cancel_right h1
    exact List.append_cancel_left h2
  · intro fn fn' hFP hN hC hD heq
    apply hD
    unfold hashData at heq
    rw [hFP, hN, hC] at heq
    exact List.append_cancel_left heq

theorem functionHash_spec_witness :
    hashData fnColl1
      ≠ hashData ⟨strOf "d", 1, 2, strOf "x", strOf "y", strOf "a:b", strOf "go", strOf "modified"⟩ :=
  functionHash_spec.2.2.2.1 fnColl1
    ⟨strOf "d", 1, 2, strOf "x", strOf "y", strOf "a:b", strOf "go", strOf "modified"⟩
    (by rfl) (by rfl) (by rfl) (by decide)

/-- Claim C2 counterexample: the separator actually used is the literal
':' itself, so the joined hash input is ambiguous — the two distinct
records fnColl1 and fnColl2 produce the identical joined data
"a:b:c:x:y" and hence identical fingerprints. -/
theorem functionHash_counterexample :
    fnColl1 ≠ fnColl2
    ∧ hashData fnColl1 = strOf "a:b:c:x:y"
    ∧ hashData fnColl2 = strOf "a:b:c:x:y"
    ∧ FunctionHash fnColl1 = FunctionHash fnColl2 := by
  refine ⟨by decide, by decide, by decide, ?_⟩
  exact congrArg fingerprintOf (by decide : hashData fnColl1 = hashData fnColl2)

theorem mem_mapSet (m : List Str) (k x : Str) : x ∈ mapSet m k ↔ x ∈ m ∨ x = k := by
  unfold mapSet
  by_cases hc : m.contains k = true
  · rw [if_pos hc]
    have hk : k ∈ m := (contains_iff m k).mp hc
    constructor
    · exact Or.inl
    · rintro (hx | hx)
      · exact hx
      · exact hx ▸ hk
  · rw [if_neg hc, List.mem_cons]
    exact or_comm

theorem load_mem (comments : List ReviewedComment) : ∀ (t : Tracker) (x : Str),
    x ∈ (LoadFromComments t comments).reviewed
      ↔ x ∈ t.reviewed ∨ (x ≠ [] ∧ ∃ c ∈ comments, c.Hash = x) := by
  induction comments with
  | nil => intro t x; simp [LoadFromComments]
  | cons c cs ih =>
    intro t x
    unfold LoadFromComments at ih ⊢
    rw [List.foldl_cons]
    by_cases hc : c.Hash = []
    · rw [if_neg (by simpa using hc)]
      rw [ih t x]
      constructor
      · rintro (h | ⟨hx, c', hc', hh⟩)
        · exact Or.inl h
        · exact Or.inr ⟨hx, c', List.mem_cons_of_mem _ hc', hh⟩
      · rintro (h | ⟨hx, c', hc', hh⟩)
        · exact Or.inl h
        · rcases List.mem_cons.mp hc' with rfl | hmem
          · have : x = [] := by rw [← hh, hc]
            exact absurd this hx
          · exact Or.inr ⟨hx, c', hmem, hh⟩
    · rw [if_pos hc]
      rw [ih ⟨mapSet t.reviewed c.Hash⟩ x]
      show x ∈ mapSet t.reviewed c.Hash ∨ _ ↔ _
      rw [mem_mapSet]
      constructor
      · rintro ((h | h) | ⟨hx, c', hc', hh⟩)
        · exact Or.inl h
        · refine Or.inr ⟨by rw [h]; exact hc, c, List.mem_cons_self c cs, h.symm⟩
        · exact Or.inr ⟨hx, c', List.mem_cons_of_mem _ hc', hh⟩
      · rintro (h | ⟨hx, c', hc', hh⟩)
        · exact Or.inl (Or.inl h)
        · rcases List.mem_cons.mp hc' with rfl | hmem
          · exact Or.inl (Or.inr hh.symm)
          · exact Or.inr ⟨hx, c', hmem, hh⟩

theorem load_nodup (comments : List ReviewedComment) : ∀ t : Tracker,
    t.reviewed.Nodup → (LoadFromComments t comments).reviewed.Nodup := by
  induction comments with
  | nil => intro t h; simpa [LoadFromComments] using h
  | cons c cs ih =>
    intro t h
    unfold LoadFromComments at ih ⊢
    rw [List.foldl_cons]
    apply ih
    by_cases hc : c.Hash ≠ []
    · rw [if_pos hc]
      show (mapSet t.reviewed c.Hash).Nodup
      unfold mapSet
      by_cases hm : t.reviewed.contains c.Hash = true
      · rwa [if_pos hm]
      · rw [if_neg hm, List.nodup_cons]
        exact ⟨fun hmem => hm ((contains_iff _ _).mpr hmem), h⟩
    · rwa [if_neg hc]

theorem filterUnreviewed_eq (t : Tracker) (fns : List ExtractedFunction) :
    FilterUnreviewed t fns = fns.filter (fun fn => !IsReviewed t fn) := by
  induction fns with
  | nil => rfl
  | cons fn rest ih =>
    cases hr : IsReviewed t fn
    · simp [FilterUnreviewed, hr, ih, List.filter_cons]
    · simp [FilterUnreviewed, hr, ih, List.filter_cons]

/-- Claim C5 (amended): FilterUnreviewed over a tracker loaded from
comments is a sublist of its input — an order-preserving subset, equal to
the whole input whenever no input function is reviewed, so not strict in
general — and it removes exactly the functions whose fingerprint belongs
to the reviewed set built by LoadFromComments (it keeps exactly those for
which IsReviewed is false). -/
theorem filterUnreviewed_spec (comments : List ReviewedComment) (fns : List ExtractedFunction) :
    List.Sublist (FilterUnreviewed (LoadFromComments NewTracker comments) fns) fns
    ∧ FilterUnreviewed (LoadFromComments NewTracker comments) fns
        = fns.filter (fun fn => !IsReviewed (LoadFromComments NewTracker comments) fn)
    ∧ ∀ fn, fn ∈ FilterUnreviewed (LoadFromComments NewTracker comments) fns
        ↔ fn ∈ fns ∧ ¬ ∃ c ∈ comments, c.Hash = FunctionHash fn ∧ c.Hash ≠ [] := by
  refine ⟨?_, filterUnreviewed_eq _ _, ?_⟩
  · rw [filterUnreviewed_eq]
    exact List.filter_sublist _
  · intro fn
    rw [filterUnreviewed_eq, List.mem_filter]
    constructor
    · rintro ⟨h1, h2⟩
      refine ⟨h1, ?_⟩
      intro hx
      have hrev : IsReviewed (LoadFromComments NewTracker comments) fn = true := by
        unfold IsReviewed
        rw [contains_iff, load_mem]
        obtain ⟨c, hc, hh, hne⟩ := hx
        exact Or.inr ⟨by rw [← hh]; exact hne, c, hc, hh⟩
      rw [hrev] at h2
      simp at h2
    · rintro ⟨h1, h2⟩
      refine ⟨h1, ?_⟩
      have hrev : ¬ IsReviewed (LoadFromComments NewTracker comments) fn = true := by
        intro hr
        unfold IsReviewed at hr
        rw [contains_iff, load_mem] at hr
        rcases hr with hmem | ⟨hne, c, hc, hh⟩
        · simp [NewTracker] at hmem
        · exact h2 ⟨c, hc, hh, by rw [hh]; exact hne⟩
      simp [Bool.not_eq_true] at hrev
      simp [hrev]

theorem filterUnreviewed_spec_witness :
    List.Sublist (FilterUnreviewed (LoadFromComments NewTracker []) [fnColl1]) [fnColl1] :=
  (filterUnreviewed_spec [] [fnColl1]).1

/-- Claim C5 counterexample: with no reviewed comments nothing is
removed, so FilterUnreviewed returns its whole input — a subset but not a
strict one. -/
theorem filterUnreviewed_counterexample :
    FilterUnreviewed (LoadFromComments NewTracker []) [fnColl1] = [fnColl1] := rfl

/-- Claim C10: LoadFromComments adds to the reviewed set exactly the
records' non-empty Hash values, with no hex or marker validation — any
non-empty string enters the duplicate-free set whose size ReviewedCount
reports — while marker validation happens only in the caller runReview,
which fills Hash via ExtractHash on each comment body. -/
theorem loadFromComments_spec :
    (∀ (comments : List ReviewedComment) (x : Str),
        x ∈ (LoadFromComments NewTracker comments).reviewed
          ↔ x ≠ [] ∧ ∃ c ∈ comments, c.Hash = x)
    ∧ (∀ comments : List ReviewedComment, (LoadFromComments NewTracker comments).reviewed.Nodup)
    ∧ (∀ comments : List ReviewedComment,
        ReviewedCount (LoadFromComments NewTracker comments)
          = (LoadFromComments NewTracker comments).reviewed.length)
    ∧ ∀ pcs : List PRComment,
        (buildReviewedComments pcs).map (fun rc => rc.Hash)
          = pcs.map (fun c => ExtractHash c.Body) := by
  refine ⟨?_, ?_, fun _ => rfl, ?_⟩
  · intro comments x
    rw [load_mem]
    simp [NewTracker]
  · intro comments
    exact load_nodup comments NewTracker (by simp [NewTracker])
  · intro pcs
    simp [buildReviewedComments, List.map_map]

theorem loadFromComments_spec_witness :
    (strOf "not-a-hash!")
      ∈ (LoadFromComments NewTracker [⟨[], 0, strOf "not-a-hash!", []⟩]).reviewed :=
  (loadFromComments_spec.1 [⟨[], 0, strOf "not-a-hash!", []⟩] (strOf "not-a-hash!")).mpr
    ⟨by decide, ⟨[], 0, strOf "not-a-hash!", []⟩, by simp, rfl⟩

/-- Claim C8: a file whose status is "deleted" is skipped entirely and
contributes no extracted records; every record emitted for a non-deleted
file carries ChangeType "added" exactly when the file status is "added"
and "modified" otherwise, so ChangeType is always one of those two. -/
theorem changeType_spec (env : ExtractorEnv) :
    (∀ file : ModifiedFile, file.Status = strOf "deleted" → fileFunctions env file = [])
    ∧ ∀ (files : List ModifiedFile) (fn : ExtractedFunction),
        fn ∈ ExtractModifiedFunctions env files →
        ∃ file ∈ files, file.Status ≠ strOf "deleted" ∧ fn.FilePath = file.Path
          ∧ fn.ChangeType
              = (if file.Status = strOf "added" then strOf "added" else strOf "modified")
          ∧ (fn.ChangeType = strOf "added" ∨ fn.ChangeType = strOf "modified") := by
  constructor
  · intro file hdel
    unfold fileFunctions
    rw [if_pos hdel]
  · intro files fn hm
    obtain ⟨file, hfile, hfn⟩ := List.mem_flatMap.mp hm
    refine ⟨file, hfile, ?_⟩
    unfold fileFunctions at hfn
    by_cases h1 : file.Status = strOf "deleted"
    · rw [if_pos h1] at hfn
      simp at hfn
    rw [if_neg h1] at hfn
    by_cases h2 : env.shouldIgnore file.Path = true
    · rw [if_pos h2] at hfn
      simp at hfn
    rw [if_neg h2] at hfn
    by_cases h3 : (!env.isSupported file.Path) = true
    · rw [if_pos h3] at hfn
      simp at hfn
    rw [if_neg h3] at hfn
    cases hex : extractFromFile env file with
    | error e =>
      simp [hex] at hfn
    | ok fns =>
      simp only [hex] at hfn
      unfold extractFromFile at hex
      cases hgc : env.getFileContent file.Path with
      | error e =>
        simp [hgc] at hex
      | ok content =>
        simp only [hgc] at hex
        cases hpp : ParsePatch file.Patch with
        | error e =>
          simp [hpp] at hex
        | ok ml =>
          simp only [hpp] at hex
          cases hpf : env.parseFile file.Path content with
          | error e =>
            simp [hpf] at hex
          | ok fl =>
            simp only [hpf, Except.ok.injEq] at hex
            subst hex
            obtain ⟨fnb, hb, hfb⟩ := List.mem_filterMap.mp hfn
            by_cases hrange : HasModifiedLineInRange ml fnb.StartLine fnb.EndLine = true
            · rw [if_pos hrange] at hfb
              injection hfb with hfb
              subst hfb
              refine ⟨h1, rfl, rfl, ?_⟩
              by_cases hst : file.Status = strOf "added"
              · left
                simp [hst]
              · right
                simp [hst]
            · rw [if_neg hrange] at hfb
              simp at hfb

theorem changeType_spec_witness :
    fileFunctions envW ⟨strOf "del.go", strOf "deleted", scenarioA⟩ = []
    ∧ ∃ file ∈ [fileW], file.Status ≠ strOf "deleted" ∧ fnW.FilePath = file.Path
        ∧ fnW.ChangeType
            = (if file.Status = strOf "added" then strOf "added" else strOf "modified")
        ∧ (fnW.ChangeType = strOf "added" ∨ fnW.ChangeType = strOf "modified") :=
  ⟨(changeType_spec envW).1 ⟨strOf "del.go", strOf "deleted", scenarioA⟩ rfl,
   (changeType_spec envW).2 [fileW] fnW (by decide)⟩

end AInspector
